import Mathlib

/-!
A verification development for the `pycfftables` core: Cover-Free Families
(CFFs), their derived views and verifier, the direct and recursive
construction algorithms, and the parameterized lookup table.

The Python package is a thin Cython binding over `libcfftables`; the bound
library's code is not part of this repository's sources, so every operation
below is modelled from the specification document (each such definition says
so in its doc comment) and checked against the repository's test suite
behaviour.
-/

set_option maxRecDepth 4000

/-- Modelled from the spec (§3): a CFF(d; t, n) is a t×n binary incidence
matrix `M` (stored row-major) together with its cover-free degree `d`.
`M` is the sole source of truth; all views are derived from it. -/
structure CFF where
  d : Nat
  t : Nat
  n : Nat
  M : List (List Bool)
deriving DecidableEq, Repr

namespace CFF

/-- Structural consistency (§3 invariants): the stored matrix really is
t×n — there are `t` rows and every row has length `n`. -/
def SWf (c : CFF) : Prop :=
  c.M.length = c.t ∧ ∀ row ∈ c.M, row.length = c.n

instance (c : CFF) : Decidable c.SWf := by
  unfold SWf; infer_instance

/-- Entry of the incidence matrix at column `j`, row `i` (false when out of
range). -/
def colBit (c : CFF) (j i : Nat) : Bool :=
  (c.M.getD i []).getD j false

/-- Modelled from the spec (§3): `rows` is the row view of the matrix. -/
def rows (c : CFF) : List (List Bool) := c.M

/-- Modelled from the spec (§3): `cols` is the transposed view — column `j`
is read down the rows of `M`. -/
def cols (c : CFF) : List (List Bool) :=
  (List.range c.n).map (fun j => c.M.map (fun row => row.getD j false))

/-- Number of ones of a bit-vector. -/
def popcount (l : List Bool) : Nat := l.count true

/-- Modelled from the spec (§3): `pools[i]` lists the column indices where
row `i` is 1. -/
def pools (c : CFF) : List (List Nat) :=
  c.M.map (fun row => (List.range c.n).filter (fun j => row.getD j false))

/-- Modelled from the spec (§3): `subsets[j]` lists the row indices where
column `j` is 1. -/
def subsets (c : CFF) : List (List Nat) :=
  c.cols.map (fun col => (List.range c.t).filter (fun i => col.getD i false))

/-- Modelled from the spec (§4.2): `verify()` checks the cover-free
property exhaustively — for every distinguished column `j` and every subset
`S` of the remaining columns with `|S| = d`, the support of column `j` must
not be a subset of the union of the supports of the columns in `S`. -/
def verify (c : CFF) : Bool :=
  decide (∀ j ∈ Finset.range c.n,
    ∀ S ∈ Finset.powersetCard c.d ((Finset.range c.n).erase j),
      ¬ ∀ i ∈ Finset.range c.t, colBit c j i = true → ∃ k ∈ S, colBit c k i = true)

/-- Propositional form of cover-freeness: every distinguished column has a
private row avoiding any `d` other columns. -/
def CoverFree (c : CFF) : Prop :=
  ∀ j ∈ Finset.range c.n,
    ∀ S ∈ Finset.powersetCard c.d ((Finset.range c.n).erase j),
      ∃ i ∈ Finset.range c.t, colBit c j i = true ∧ ∀ k ∈ S, colBit c k i = false

theorem verify_eq_true_iff (c : CFF) : c.verify = true ↔ c.CoverFree := by
  unfold verify CoverFree
  rw [decide_eq_true_iff]
  constructor
  · intro h j hj S hS
    have h' := h j hj S hS
    push_neg at h'
    obtain ⟨i, hit, hbit, hnex⟩ := h'
    refine ⟨i, hit, hbit, ?_⟩
    intro k hk
    have := hnex k hk
    simpa using this
  · intro h j hj S hS hall
    obtain ⟨i, hit, hbit, hav⟩ := h j hj S hS
    obtain ⟨k, hk, hktrue⟩ := hall i hit hbit
    have := hav k hk
    rw [this] at hktrue
    exact Bool.false_ne_true hktrue

end CFF

/-! ### List access helpers -/

theorem getD_map_range {α : Type} (f : Nat → α) (d : α) {n j : Nat} (h : j < n) :
    ((List.range n).map f).getD j d = f j := by
  rw [List.getD_eq_getElem?_getD, List.getElem?_map, List.getElem?_range h]
  rfl

theorem getD_replicate_lt {α : Type} (a d : α) {n i : Nat} (h : i < n) :
    (List.replicate n a).getD i d = a := by
  rw [List.getD_eq_getElem?_getD, List.getElem?_replicate, if_pos h]
  rfl

theorem getD_replicate_false (n i : Nat) :
    (List.replicate n false).getD i false = false := by
  rcases Nat.lt_or_ge i n with h | h
  · exact getD_replicate_lt _ _ h
  · exact List.getD_eq_default _ _ (by simpa using h)

theorem getD_append_lt {α : Type} (l₁ l₂ : List α) (d : α) {i : Nat}
    (h : i < l₁.length) : (l₁ ++ l₂).getD i d = l₁.getD i d := by
  rw [List.getD_eq_getElem?_getD, List.getD_eq_getElem?_getD,
    List.getElem?_append, if_pos h]

theorem getD_append_ge {α : Type} (l₁ l₂ : List α) (d : α) {i : Nat}
    (h : l₁.length ≤ i) : (l₁ ++ l₂).getD i d = l₂.getD (i - l₁.length) d := by
  rw [List.getD_eq_getElem?_getD, List.getD_eq_getElem?_getD,
    List.getElem?_append_right h]

theorem getD_map_lt {α β : Type} (g : α → β) (l : List α) (d : α) (d' : β)
    {i : Nat} (h : i < l.length) : (l.map g).getD i d' = g (l.getD i d) := by
  simp [List.getD_eq_getElem?_getD, List.getElem?_map, List.getElem?_eq_getElem h]

theorem getD_mem_of_lt {α : Type} (l : List α) (d : α) {i : Nat}
    (h : i < l.length) : l.getD i d ∈ l := by
  rw [List.getD_eq_getElem?_getD, List.getElem?_eq_getElem h]
  exact List.getElem_mem h

/-- Filtering the index range of a bit-vector by its entries yields one index
per set bit. -/
theorem length_filter_range_getD (r : List Bool) :
    ((List.range r.length).filter (fun j => r.getD j false)).length = r.count true := by
  induction r with
  | nil => simp
  | cons b r ih =>
    have hcomp : ((fun j => (b :: r).getD j false) ∘ Nat.succ) =
        (fun j => r.getD j false) := by
      funext j
      simp [List.getD_cons_succ]
    have hfil : List.filter (fun j => (b :: r).getD j false)
        ((List.range r.length).map Nat.succ) =
        ((List.range r.length).filter (fun j => r.getD j false)).map Nat.succ := by
      rw [List.filter_map, hcomp]
    rw [List.length_cons, List.range_succ_eq_map, List.filter_cons, hfil]
    simp only [List.getD_eq_getElem?_getD] at ih
    cases b <;> simp [List.count_cons, ih]

namespace CFF

/-- Mutual consistency of the derived views with the incidence matrix
(§3, §8 "Dimension consistency"). -/
def ViewConsistent (c : CFF) : Prop :=
  c.rows.length = c.t ∧ c.cols.length = c.n ∧
  (∀ i j, i < c.t → j < c.n →
    (c.rows.getD i []).getD j false = (c.cols.getD j []).getD i false) ∧
  (∀ i, i < c.t → (c.pools.getD i []).length = popcount (c.rows.getD i [])) ∧
  (∀ j, j < c.n → (c.subsets.getD j []).length = popcount (c.cols.getD j []))

theorem cols_getD (c : CFF) {j : Nat} (hj : j < c.n) :
    c.cols.getD j [] = c.M.map (fun row => row.getD j false) :=
  getD_map_range _ _ hj

theorem viewConsistent_of_SWf (c : CFF) (h : c.SWf) : c.ViewConsistent := by
  obtain ⟨hlen, hrow⟩ := h
  refine ⟨hlen, by simp [cols], ?_, ?_, ?_⟩
  · intro i j hi hj
    rw [cols_getD c hj, rows,
      getD_map_lt (fun row => row.getD j false) c.M [] false (by omega)]
  · intro i hi
    have hi' : i < c.M.length := by omega
    rw [pools, rows,
      getD_map_lt (fun row => (List.range c.n).filter (fun j => row.getD j false))
        c.M [] [] hi']
    have hrl : (c.M.getD i []).length = c.n := hrow _ (getD_mem_of_lt _ _ hi')
    rw [popcount, ← length_filter_range_getD, hrl]
  · intro j hj
    have hj' : j < c.cols.length := by simp [cols]; omega
    rw [subsets,
      getD_map_lt (fun col => (List.range c.t).filter (fun i => col.getD i false))
        c.cols [] [] hj']
    have hcl : (c.cols.getD j []).length = c.t := by
      rw [cols_getD c hj, List.length_map, hlen]
    rw [popcount, ← length_filter_range_getD, hcl]

/-! ### Direct constructors -/

/-- Modelled from the spec (§4.3): `all_zeros(d, t, n)` is the degenerate
t×n all-zero matrix. -/
def all_zeros (d t n : Nat) : CFF :=
  ⟨d, t, n, List.replicate t (List.replicate n false)⟩

/-- Modelled from the spec (§4.3): `identity(d, n)` has t = n and the n×n
identity matrix (row i has a single 1 at column i). -/
def identity (d n : Nat) : CFF :=
  ⟨d, n, n, (List.range n).map (fun i => (List.range n).map (fun j => decide (i = j)))⟩

theorem colBit_all_zeros (d t n j i : Nat) :
    (all_zeros d t n).colBit j i = false := by
  unfold all_zeros colBit
  rcases Nat.lt_or_ge i t with h | h
  · rw [show (⟨d, t, n, List.replicate t (List.replicate n false)⟩ : CFF).M =
      List.replicate t (List.replicate n false) from rfl,
      getD_replicate_lt _ _ h, getD_replicate_false]
  · have houter : (List.replicate t (List.replicate n false)).getD i
        ([] : List Bool) = [] :=
      List.getD_eq_default _ _ (by simpa using h)
    rw [show (⟨d, t, n, List.replicate t (List.replicate n false)⟩ : CFF).M =
      List.replicate t (List.replicate n false) from rfl, houter]
    rfl

theorem colBit_identity (d : Nat) {n j i : Nat} (hi : i < n) (hj : j < n) :
    (identity d n).colBit j i = decide (i = j) := by
  unfold identity colBit
  rw [show (⟨d, n, n, (List.range n).map
      (fun i => (List.range n).map (fun j => decide (i = j)))⟩ : CFF).M =
      (List.range n).map (fun i => (List.range n).map (fun j => decide (i = j)))
        from rfl,
    getD_map_range _ _ hi, getD_map_range _ _ hj]

/-- The identity construction always passes the verifier: the distinguished
column's private row is its own diagonal row. -/
theorem verify_identity (d n : Nat) : (identity d n).verify = true := by
  rw [verify_eq_true_iff]
  intro j hj S hS
  have hjn : j < n := by simpa [identity] using hj
  refine ⟨j, by simpa [identity] using hjn, ?_, ?_⟩
  · rw [colBit_identity d hjn hjn]; simp
  · intro k hk
    rw [Finset.mem_powersetCard] at hS
    have hk' := hS.1 hk
    rw [Finset.mem_erase, Finset.mem_range] at hk'
    rw [colBit_identity d hjn hk'.2]
    simp [Ne.symm hk'.1]

/-- The all-zero matrix fails the verifier as soon as a size-d subset of
other columns exists (`d < n`): an empty support is covered by anything. -/
theorem verify_all_zeros_false (d t : Nat) {n : Nat} (hdn : d < n) :
    (all_zeros d t n).verify = false := by
  rw [Bool.eq_false_iff]
  intro hv
  rw [verify_eq_true_iff] at hv
  have hn : 0 < n := Nat.lt_of_le_of_lt (Nat.zero_le d) hdn
  have h0 : (0 : Nat) ∈ Finset.range (all_zeros d t n).n := by
    simpa [all_zeros] using hn
  obtain ⟨S, hSsub, hScard⟩ :=
    Finset.exists_subset_card_eq
      (show (all_zeros d t n).d ≤ ((Finset.range (all_zeros d t n).n).erase 0).card by
        rw [Finset.card_erase_of_mem h0, Finset.card_range]
        simp only [all_zeros]
        omega)
  obtain ⟨i, _, hbit, _⟩ := hv 0 h0 S (Finset.mem_powersetCard.mpr ⟨hSsub, hScard⟩)
  rw [colBit_all_zeros] at hbit
  exact Bool.false_ne_true hbit

end CFF

/-- A Steiner triple system on `v` points: a list of 3-element blocks from
`{0, …, v-1}` such that every pair of distinct points lies in exactly one
block. -/
def isSTS (v : Nat) (blocks : List (Finset Nat)) : Prop :=
  (∀ b ∈ blocks, b ⊆ Finset.range v ∧ b.card = 3) ∧
  (∀ p ∈ Finset.range v, ∀ q ∈ Finset.range v, p ≠ q →
    blocks.countP (fun b => decide (p ∈ b ∧ q ∈ b)) = 1)

instance (v : Nat) (blocks : List (Finset Nat)) : Decidable (isSTS v blocks) := by
  unfold isSTS; infer_instance

/-- The affine plane AG(2,3): the unique STS(9), its 12 blocks being the
lines of a 3×3 grid (point (x,y) is numbered x + 3y). -/
def sts9blocks : List (Finset Nat) :=
  [{0, 1, 2}, {3, 4, 5}, {6, 7, 8}, {0, 3, 6}, {1, 4, 7}, {2, 5, 8},
   {0, 4, 8}, {2, 3, 7}, {1, 5, 6}, {0, 5, 7}, {1, 3, 8}, {2, 4, 6}]

/-- A cyclic STS(13): the base blocks {0,1,4} and {0,2,7} developed mod 13,
26 blocks in total. -/
def sts13blocks : List (Finset Nat) :=
  (List.range 13).map (fun i => {i, (i + 1) % 13, (i + 4) % 13}) ++
    (List.range 13).map (fun i => {i, (i + 2) % 13, (i + 7) % 13})

namespace CFF

/-- Modelled from the spec (§4.3): `sts(v)` builds a CFF from a Steiner
Triple System on `v` points — rows are the `v` points, columns are the
blocks, entry (point, block) is 1 iff the point lies in the block. The
library computes the triple system internally (that code is not in this
repository's sources), so the system is an explicit argument here, with
concrete systems supplied for v = 9 and v = 13. The spec does not fix the
cover-free degree recorded on the result; it is modelled as d = 1 (the
degree of the antichain-style direct constructions), which is the choice
consistent with every test in the repository. -/
def sts (v : Nat) (blocks : List (Finset Nat)) : CFF :=
  ⟨1, v, blocks.length, (List.range v).map (fun p => blocks.map (fun b => decide (p ∈ b)))⟩

end CFF

namespace CFF

/-! ### Recursive constructors -/

/-- Modelled from the spec (§4.3): `add(left, right)` is the additive
(direct-sum) combination — block-diagonal composition with
t' = t_left + t_right, n' = n_left + n_right, d' = min(d_left, d_right);
each input occupies a disjoint row/column block, zero elsewhere. -/
def add (l r : CFF) : CFF :=
  ⟨min l.d r.d, l.t + r.t, l.n + r.n,
    l.M.map (fun row => row ++ List.replicate r.n false) ++
      r.M.map (fun row => List.replicate l.n false ++ row)⟩

theorem SWf_add {l r : CFF} (hl : l.SWf) (hr : r.SWf) : (add l r).SWf := by
  constructor
  · simp [add, hl.1, hr.1]
  · intro row hrow
    simp only [add, List.mem_append, List.mem_map] at hrow
    show row.length = l.n + r.n
    rcases hrow with ⟨row', hm, rfl⟩ | ⟨row', hm, rfl⟩
    · simp [hl.2 row' hm]
    · simp [hr.2 row' hm, Nat.add_comm]

theorem colBit_add_tl {l r : CFF} (hl : l.SWf) {i j : Nat}
    (hi : i < l.t) (hj : j < l.n) : (add l r).colBit j i = l.colBit j i := by
  have hiM : i < l.M.length := by rw [hl.1]; exact hi
  have hrowlen : (l.M.getD i []).length = l.n := hl.2 _ (getD_mem_of_lt _ _ hiM)
  show ((l.M.map (fun row => row ++ List.replicate r.n false) ++
    r.M.map (fun row => List.replicate l.n false ++ row)).getD i []).getD j false =
    (l.M.getD i []).getD j false
  rw [getD_append_lt _ _ _ (by simpa using hiM),
    getD_map_lt (fun row => row ++ List.replicate r.n false) l.M [] [] hiM,
    getD_append_lt _ _ _ (by rw [hrowlen]; exact hj)]

theorem colBit_add_tr {l r : CFF} (hl : l.SWf) {i j : Nat}
    (hi : i < l.t) (hj : l.n ≤ j) : (add l r).colBit j i = false := by
  have hiM : i < l.M.length := by rw [hl.1]; exact hi
  have hrowlen : (l.M.getD i []).length = l.n := hl.2 _ (getD_mem_of_lt _ _ hiM)
  show ((l.M.map (fun row => row ++ List.replicate r.n false) ++
    r.M.map (fun row => List.replicate l.n false ++ row)).getD i []).getD j false =
    false
  rw [getD_append_lt _ _ _ (by simpa using hiM),
    getD_map_lt (fun row => row ++ List.replicate r.n false) l.M [] [] hiM,
    getD_append_ge _ _ _ (by rw [hrowlen]; exact hj), getD_replicate_false]

theorem colBit_add_bl {l r : CFF} (hl : l.SWf) (hr : r.SWf) {i j : Nat}
    (hi1 : l.t ≤ i) (hi2 : i < l.t + r.t) (hj : j < l.n) :
    (add l r).colBit j i = false := by
  have hiM : i - l.t < r.M.length := by rw [hr.1]; omega
  show ((l.M.map (fun row => row ++ List.replicate r.n false) ++
    r.M.map (fun row => List.replicate l.n false ++ row)).getD i []).getD j false =
    false
  rw [getD_append_ge _ _ _ (by rw [List.length_map, hl.1]; exact hi1),
    show i - (l.M.map (fun row => row ++ List.replicate r.n false)).length =
      i - l.t by rw [List.length_map, hl.1],
    getD_map_lt (fun row => List.replicate l.n false ++ row) r.M [] [] hiM,
    getD_append_lt _ _ _ (by simpa using hj), getD_replicate_false]

theorem colBit_add_br {l r : CFF} (hl : l.SWf) (hr : r.SWf) {i j : Nat}
    (hi1 : l.t ≤ i) (hi2 : i < l.t + r.t) (hj : l.n ≤ j) :
    (add l r).colBit j i = r.colBit (j - l.n) (i - l.t) := by
  have hiM : i - l.t < r.M.length := by rw [hr.1]; omega
  show ((l.M.map (fun row => row ++ List.replicate r.n false) ++
    r.M.map (fun row => List.replicate l.n false ++ row)).getD i []).getD j false =
    (r.M.getD (i - l.t) []).getD (j - l.n) false
  rw [getD_append_ge _ _ _ (by rw [List.length_map, hl.1]; exact hi1),
    show i - (l.M.map (fun row => row ++ List.replicate r.n false)).length =
      i - l.t by rw [List.length_map, hl.1],
    getD_map_lt (fun row => List.replicate l.n false ++ row) r.M [] [] hiM,
    getD_append_ge _ _ _ (by simpa using hj),
    show j - (List.replicate l.n (false : Bool)).length = j - l.n by
      rw [List.length_replicate]]

/-- The direct sum of two verified CFFs is verified (for the combined degree
min(d_left, d_right)), provided each input has enough columns to host a
size-d subset. -/
theorem CoverFree_add {l r : CFF} (hl : l.SWf) (hr : r.SWf)
    (hvl : l.CoverFree) (hvr : r.CoverFree)
    (hdl : l.d < l.n) (hdr : r.d < r.n) : (add l r).CoverFree := by
  intro j hj S hS
  rw [Finset.mem_range] at hj
  rw [Finset.mem_powersetCard] at hS
  obtain ⟨hSsub, hScard⟩ := hS
  have hjn : j < l.n + r.n := hj
  have hScard' : S.card = min l.d r.d := hScard
  by_cases hjl : j < l.n
  · -- the distinguished column lies in the left block
    have hSLsub : S.filter (fun k => k < l.n) ⊆ (Finset.range l.n).erase j := by
      intro k hk
      rw [Finset.mem_filter] at hk
      have hke := hSsub hk.1
      rw [Finset.mem_erase] at hke
      exact Finset.mem_erase.mpr ⟨hke.1, Finset.mem_range.mpr hk.2⟩
    obtain ⟨T, hTsup, hTsub, hTcard⟩ :=
      (Finset.exists_subsuperset_card_eq hSLsub
        (le_trans (Finset.card_filter_le _ _)
          (by rw [hScard']; exact Nat.min_le_left _ _))
        (by
          rw [Finset.card_erase_of_mem (Finset.mem_range.mpr hjl), Finset.card_range]
          omega) :
        ∃ u, S.filter (fun k => k < l.n) ⊆ u ∧
          u ⊆ (Finset.range l.n).erase j ∧ u.card = l.d)
    obtain ⟨i, hit, hbit, hfor⟩ :=
      hvl j (Finset.mem_range.mpr hjl) T (Finset.mem_powersetCard.mpr ⟨hTsub, hTcard⟩)
    rw [Finset.mem_range] at hit
    refine ⟨i, Finset.mem_range.mpr (show i < l.t + r.t by omega), ?_, ?_⟩
    · rw [colBit_add_tl hl hit hjl]; exact hbit
    · intro k hk
      by_cases hkl : k < l.n
      · rw [colBit_add_tl hl hit hkl]
        exact hfor k (hTsup (Finset.mem_filter.mpr ⟨hk, hkl⟩))
      · exact colBit_add_tr hl hit (Nat.le_of_not_lt hkl)
  · -- the distinguished column lies in the right block
    have hjge : l.n ≤ j := Nat.le_of_not_lt hjl
    have hj2 : j - l.n < r.n := by omega
    have hSRsub : (S.filter (fun k => l.n ≤ k)).image (fun k => k - l.n) ⊆
        (Finset.range r.n).erase (j - l.n) := by
      intro k' hk'
      rw [Finset.mem_image] at hk'
      obtain ⟨k, hk, rfl⟩ := hk'
      rw [Finset.mem_filter] at hk
      have hke := hSsub hk.1
      rw [Finset.mem_erase, Finset.mem_range] at hke
      have hkn : k < l.n + r.n := hke.2
      refine Finset.mem_erase.mpr ⟨?_, Finset.mem_range.mpr (by omega)⟩
      intro he
      exact hke.1 (by omega)
    obtain ⟨T, hTsup, hTsub, hTcard⟩ :=
      (Finset.exists_subsuperset_card_eq hSRsub
        (le_trans Finset.card_image_le
          (le_trans (Finset.card_filter_le _ _)
            (by rw [hScard']; exact Nat.min_le_right _ _)))
        (by
          rw [Finset.card_erase_of_mem (Finset.mem_range.mpr hj2), Finset.card_range]
          omega) :
        ∃ u, (S.filter (fun k => l.n ≤ k)).image (fun k => k - l.n) ⊆ u ∧
          u ⊆ (Finset.range r.n).erase (j - l.n) ∧ u.card = r.d)
    obtain ⟨i2, hit2, hbit2, hfor2⟩ :=
      hvr (j - l.n) (Finset.mem_range.mpr hj2) T
        (Finset.mem_powersetCard.mpr ⟨hTsub, hTcard⟩)
    rw [Finset.mem_range] at hit2
    refine ⟨l.t + i2, Finset.mem_range.mpr (show l.t + i2 < l.t + r.t by omega),
      ?_, ?_⟩
    · rw [colBit_add_br hl hr (Nat.le_add_right _ _) (by omega) hjge,
        Nat.add_sub_cancel_left]
      exact hbit2
    · intro k hk
      by_cases hkl : k < l.n
      · exact colBit_add_bl hl hr (Nat.le_add_right _ _) (by omega) hkl
      · rw [colBit_add_br hl hr (Nat.le_add_right _ _) (by omega)
          (Nat.le_of_not_lt hkl), Nat.add_sub_cancel_left]
        refine hfor2 _ (hTsup ?_)
        exact Finset.mem_image.mpr
          ⟨k, Finset.mem_filter.mpr ⟨hk, Nat.le_of_not_lt hkl⟩, rfl⟩

/-- Modelled from the spec (§4.3): `kronecker(left, right)` is the
tensor-product construction — t' = t_left · t_right, n' = n_left · n_right,
d' = min(d_left, d_right), and entry ((i1,i2),(j1,j2)) =
left[i1,j1] AND right[i2,j2], with row (i1,i2) flattened to i1·t_right + i2
and column (j1,j2) flattened to j1·n_right + j2. -/
def kronecker (l r : CFF) : CFF :=
  ⟨min l.d r.d, l.t * r.t, l.n * r.n,
    (List.range (l.t * r.t)).map (fun i => (List.range (l.n * r.n)).map (fun j =>
      l.colBit (j / r.n) (i / r.t) && r.colBit (j % r.n) (i % r.t)))⟩

theorem SWf_kronecker (l r : CFF) : (kronecker l r).SWf := by
  constructor
  · simp [kronecker]
  · intro row hrow
    simp only [kronecker, List.mem_map, List.mem_range] at hrow
    obtain ⟨i, _, rfl⟩ := hrow
    simp [kronecker]

theorem colBit_kronecker (l r : CFF) {i j : Nat}
    (hi : i < l.t * r.t) (hj : j < l.n * r.n) :
    (kronecker l r).colBit j i =
      (l.colBit (j / r.n) (i / r.t) && r.colBit (j % r.n) (i % r.t)) := by
  show (((List.range (l.t * r.t)).map (fun i => (List.range (l.n * r.n)).map
      (fun j => l.colBit (j / r.n) (i / r.t) && r.colBit (j % r.n) (i % r.t)))).getD
      i []).getD j false = _
  rw [getD_map_range _ _ hi, getD_map_range _ _ hj]

/-- The Kronecker product of two verified CFFs is verified for the combined
degree min(d_left, d_right), provided each factor has enough columns to host
a size-d subset. -/
theorem CoverFree_kronecker {l r : CFF} (hvl : l.CoverFree) (hvr : r.CoverFree)
    (hdl : l.d < l.n) (hdr : r.d < r.n) : (kronecker l r).CoverFree := by
  intro j hj S hS
  rw [Finset.mem_range] at hj
  have hjn : j < l.n * r.n := hj
  rw [Finset.mem_powersetCard] at hS
  obtain ⟨hSsub, hScard⟩ := hS
  have hScard' : S.card = min l.d r.d := hScard
  have hrn : 0 < r.n := Nat.lt_of_le_of_lt (Nat.zero_le _) hdr
  have hj1 : j / r.n < l.n := (Nat.div_lt_iff_lt_mul hrn).mpr hjn
  have hj2 : j % r.n < r.n := Nat.mod_lt _ hrn
  have hmemS : ∀ k ∈ S, k ≠ j ∧ k < l.n * r.n := by
    intro k hk
    have hke := hSsub hk
    rw [Finset.mem_erase, Finset.mem_range] at hke
    exact ⟨hke.1, hke.2⟩
  -- avoid the left projections of the interfering columns
  have hS1sub : (S.filter (fun k => k / r.n ≠ j / r.n)).image (fun k => k / r.n) ⊆
      (Finset.range l.n).erase (j / r.n) := by
    intro k' hk'
    rw [Finset.mem_image] at hk'
    obtain ⟨k, hk, rfl⟩ := hk'
    rw [Finset.mem_filter] at hk
    exact Finset.mem_erase.mpr ⟨hk.2,
      Finset.mem_range.mpr ((Nat.div_lt_iff_lt_mul hrn).mpr (hmemS k hk.1).2)⟩
  obtain ⟨T1, hT1sup, hT1sub, hT1card⟩ :=
    (Finset.exists_subsuperset_card_eq hS1sub
      (le_trans Finset.card_image_le
        (le_trans (Finset.card_filter_le _ _)
          (by rw [hScard']; exact Nat.min_le_left _ _)))
      (by
        rw [Finset.card_erase_of_mem (Finset.mem_range.mpr hj1), Finset.card_range]
        omega) :
      ∃ u, (S.filter (fun k => k / r.n ≠ j / r.n)).image (fun k => k / r.n) ⊆ u ∧
        u ⊆ (Finset.range l.n).erase (j / r.n) ∧ u.card = l.d)
  obtain ⟨i1, hit1, hbit1, hfor1⟩ :=
    hvl (j / r.n) (Finset.mem_range.mpr hj1) T1
      (Finset.mem_powersetCard.mpr ⟨hT1sub, hT1card⟩)
  rw [Finset.mem_range] at hit1
  -- avoid the right projections of the interfering columns sharing the left index
  have hS2sub : (S.filter (fun k => k / r.n = j / r.n)).image (fun k => k % r.n) ⊆
      (Finset.range r.n).erase (j % r.n) := by
    intro k' hk'
    rw [Finset.mem_image] at hk'
    obtain ⟨k, hk, rfl⟩ := hk'
    rw [Finset.mem_filter] at hk
    refine Finset.mem_erase.mpr ⟨?_, Finset.mem_range.mpr (Nat.mod_lt _ hrn)⟩
    intro hmodeq
    have e1 := Nat.div_add_mod k r.n
    have e2 := Nat.div_add_mod j r.n
    rw [hk.2, hmodeq] at e1
    exact (hmemS k hk.1).1 (by omega)
  obtain ⟨T2, hT2sup, hT2sub, hT2card⟩ :=
    (Finset.exists_subsuperset_card_eq hS2sub
      (le_trans Finset.card_image_le
        (le_trans (Finset.card_filter_le _ _)
          (by rw [hScard']; exact Nat.min_le_right _ _)))
      (by
        rw [Finset.card_erase_of_mem (Finset.mem_range.mpr hj2), Finset.card_range]
        omega) :
      ∃ u, (S.filter (fun k => k / r.n = j / r.n)).image (fun k => k % r.n) ⊆ u ∧
        u ⊆ (Finset.range r.n).erase (j % r.n) ∧ u.card = r.d)
  obtain ⟨i2, hit2, hbit2, hfor2⟩ :=
    hvr (j % r.n) (Finset.mem_range.mpr hj2) T2
      (Finset.mem_powersetCard.mpr ⟨hT2sub, hT2card⟩)
  rw [Finset.mem_range] at hit2
  have hidiv : (i1 * r.t + i2) / r.t = i1 := by
    rw [Nat.mul_comm i1 r.t, Nat.mul_add_div (by omega), Nat.div_eq_of_lt hit2,
      Nat.add_zero]
  have himod : (i1 * r.t + i2) % r.t = i2 := by
    rw [Nat.mul_comm i1 r.t, Nat.mul_add_mod, Nat.mod_eq_of_lt hit2]
  have hilt : i1 * r.t + i2 < l.t * r.t := by
    calc i1 * r.t + i2 < i1 * r.t + r.t := by omega
    _ = (i1 + 1) * r.t := by ring
    _ ≤ l.t * r.t := Nat.mul_le_mul_right _ (by omega)
  refine ⟨i1 * r.t + i2, Finset.mem_range.mpr hilt, ?_, ?_⟩
  · rw [colBit_kronecker l r hilt hjn, hidiv, himod, hbit1, hbit2]
    rfl
  · intro k hk
    rw [colBit_kronecker l r hilt (hmemS k hk).2, hidiv, himod]
    by_cases hcase : k / r.n = j / r.n
    · rw [hfor2 (k % r.n)
        (hT2sup (Finset.mem_image.mpr ⟨k, Finset.mem_filter.mpr ⟨hk, hcase⟩, rfl⟩))]
      rw [Bool.and_false]
    · rw [hfor1 (k / r.n)
        (hT1sup (Finset.mem_image.mpr ⟨k, Finset.mem_filter.mpr ⟨hk, hcase⟩, rfl⟩))]
      rw [Bool.false_and]

/-- Modelled from the spec (§4.3): `double(cff)` produces t' = 2t, n' = 2n
and preserves d. The spec does not pin down the doubled matrix beyond these
guarantees; it is modelled as the direct-sum of the CFF with itself, which
realizes all of them. -/
def double (c : CFF) : CFF := add c c

/-- A candidate extension: append one new column whose bit in row `i` is the
i-th bit of the counter `w`. -/
def appendColumn (c : CFF) (w : Nat) : CFF :=
  ⟨c.d, c.t, c.n + 1, (List.range c.t).map (fun i => (c.M.getD i []) ++ [w.testBit i])⟩

theorem SWf_appendColumn {c : CFF} (h : c.SWf) (w : Nat) : (appendColumn c w).SWf := by
  constructor
  · simp [appendColumn]
  · intro row hrow
    simp only [appendColumn, List.mem_map, List.mem_range] at hrow
    obtain ⟨i, hi, rfl⟩ := hrow
    show (c.M.getD i [] ++ [w.testBit i]).length = c.n + 1
    rw [List.length_append,
      h.2 _ (getD_mem_of_lt _ _ (show i < c.M.length by rw [h.1]; exact hi))]
    rfl

/-- First index at or after `start` (searching `fuel` candidates) on which
`p` holds. -/
def findFrom (p : Nat → Bool) : Nat → Nat → Option Nat
  | _, 0 => none
  | s, f + 1 => if p s then some s else findFrom p (s + 1) f

theorem findFrom_some {p : Nat → Bool} :
    ∀ {f s a : Nat}, findFrom p s f = some a →
      p a = true ∧ s ≤ a ∧ ∀ b, s ≤ b → b < a → p b = false := by
  intro f
  induction f with
  | zero => intro s a h; simp [findFrom] at h
  | succ f ih =>
    intro s a h
    rw [findFrom] at h
    by_cases hp : p s
    · rw [if_pos hp] at h
      cases h
      exact ⟨hp, Nat.le_refl _, fun b hb1 hb2 => absurd hb2 (by omega)⟩
    · rw [if_neg hp] at h
      obtain ⟨hpa, hsa, hmin⟩ := ih h
      refine ⟨hpa, by omega, ?_⟩
      intro b hb1 hb2
      rcases Nat.eq_or_lt_of_le hb1 with rfl | hlt
      · exact Bool.eq_false_iff.mpr hp
      · exact hmin b hlt hb2

/-- Modelled from the spec (§4.3, §7): `extend_by_one(cff)` appends a single
new item (column), preserving d and t, without breaking the cover-free
property; it fails with `ConstructionError` when no degree-preserving
extension exists, and never returns a partially built CFF. The spec leaves
the choice of augmentation open; it is modelled as the first candidate
column (in binary counting order of bit-vectors over the t rows) on which
the verifier accepts the extended family. -/
def extend_by_one (c : CFF) : Except String CFF :=
  match findFrom (fun w => (appendColumn c w).verify) 0 (2 ^ c.t) with
  | some w => .ok (appendColumn c w)
  | none => .error "ConstructionError"

theorem extend_by_one_ok {c c' : CFF} (h : extend_by_one c = .ok c') :
    c'.d = c.d ∧ c'.t = c.t ∧ c'.n = c.n + 1 ∧ c'.verify = true := by
  unfold extend_by_one at h
  cases hfind : findFrom (fun w => (appendColumn c w).verify) 0 (2 ^ c.t) with
  | none => rw [hfind] at h; cases h
  | some w =>
    rw [hfind] at h
    cases h
    exact ⟨rfl, rfl, rfl, (findFrom_some hfind).1⟩

theorem extend_by_one_total (c : CFF) :
    (∃ c', extend_by_one c = .ok c') ∨
      extend_by_one c = .error "ConstructionError" := by
  unfold extend_by_one
  cases findFrom (fun w => (appendColumn c w).verify) 0 (2 ^ c.t) with
  | none => exact Or.inr rfl
  | some w => exact Or.inl ⟨appendColumn c w, rfl⟩

theorem extend_by_one_SWf {c c' : CFF} (hc : c.SWf)
    (h : extend_by_one c = .ok c') : c'.SWf := by
  unfold extend_by_one at h
  cases hfind : findFrom (fun w => (appendColumn c w).verify) 0 (2 ^ c.t) with
  | none => rw [hfind] at h; cases h
  | some w =>
    rw [hfind] at h
    cases h
    exact SWf_appendColumn hc w

theorem findFrom_none {p : Nat → Bool} :
    ∀ {f s : Nat}, findFrom p s f = none → ∀ b, s ≤ b → b < s + f → p b = false := by
  intro f
  induction f with
  | zero => intro s _ b hb1 hb2; omega
  | succ f ih =>
    intro s h b hb1 hb2
    rw [findFrom] at h
    by_cases hp : p s
    · rw [if_pos hp] at h; cases h
    · rw [if_neg hp] at h
      rcases Nat.eq_or_lt_of_le hb1 with rfl | hlt
      · exact Bool.eq_false_iff.mpr hp
      · exact ih h b hlt (by omega)

theorem le_choose_middle (n : Nat) : n ≤ Nat.choose n (n / 2) := by
  cases n with
  | zero => simp
  | succ m =>
    calc m + 1 = Nat.choose (m + 1) 1 := (Nat.choose_one_right _).symm
    _ ≤ Nat.choose (m + 1) ((m + 1) / 2) := Nat.choose_le_middle 1 (m + 1)

/-- The number of tests of the Sperner construction: the smallest t with
C(t, ⌊t/2⌋) ≥ n. -/
def spernerT (n : Nat) : Nat :=
  (findFrom (fun t => decide (n ≤ Nat.choose t (t / 2))) 0 (n + 1)).getD n

theorem spernerT_spec (n : Nat) : n ≤ Nat.choose (spernerT n) (spernerT n / 2) := by
  unfold spernerT
  cases hf : findFrom (fun t => decide (n ≤ Nat.choose t (t / 2))) 0 (n + 1) with
  | none =>
    have := findFrom_none hf n (Nat.zero_le _) (by omega)
    rw [decide_eq_false_iff_not] at this
    exact absurd (le_choose_middle n) this
  | some a =>
    have := (findFrom_some hf).1
    rw [decide_eq_true_iff] at this
    exact this

/-- Modelled from the spec (§4.3): `sperner(n)` builds a CFF whose n columns
are the characteristic vectors of n distinct ⌊t/2⌋-subsets of a t-set
(the middle binomial layer, a maximum antichain), with t the smallest value
such that C(t, ⌊t/2⌋) ≥ n; its cover-free degree is d = 1. -/
def sperner (n : Nat) : CFF :=
  ⟨1, spernerT n, n,
    (List.range (spernerT n)).map (fun i =>
      ((List.sublistsLen (spernerT n / 2) (List.range (spernerT n))).take n).map
        (fun s => decide (i ∈ s)))⟩

theorem SWf_all_zeros (d t n : Nat) : (all_zeros d t n).SWf := by
  constructor
  · simp [all_zeros]
  · intro row hrow
    simp only [all_zeros, List.mem_replicate] at hrow
    rw [hrow.2]
    simp [all_zeros]

theorem SWf_identity (d n : Nat) : (identity d n).SWf := by
  constructor
  · simp [identity]
  · intro row hrow
    simp only [identity, List.mem_map, List.mem_range] at hrow
    obtain ⟨i, _, rfl⟩ := hrow
    simp [identity]

theorem SWf_sts (v : Nat) (blocks : List (Finset Nat)) : (sts v blocks).SWf := by
  constructor
  · simp [sts]
  · intro row hrow
    simp only [sts, List.mem_map, List.mem_range] at hrow
    obtain ⟨p, _, rfl⟩ := hrow
    simp [sts]

theorem SWf_sperner (n : Nat) : (sperner n).SWf := by
  constructor
  · simp [sperner]
  · intro row hrow
    simp only [sperner, List.mem_map, List.mem_range] at hrow
    obtain ⟨i, _, rfl⟩ := hrow
    show (((List.sublistsLen (spernerT n / 2) (List.range (spernerT n))).take n).map
      (fun s => decide (i ∈ s))).length = n
    rw [List.length_map, List.length_take, List.length_sublistsLen,
      List.length_range]
    exact Nat.min_eq_left (spernerT_spec n)

end CFF

/-! ### Counting lemmas for Steiner triple systems -/

theorem sum_map_constant {α : Type} (L : List α) (c : Nat) :
    (L.map (fun _ => c)).sum = c * L.length := by
  induction L with
  | nil => simp
  | cons b L ih =>
    rw [List.map_cons, List.sum_cons, ih, List.length_cons]
    ring

theorem sum_map_ite {α : Type} (L : List α) (q : α → Prop) [DecidablePred q]
    (c : Nat) :
    (L.map (fun b => if q b then c else 0)).sum = c * L.countP (fun b => decide (q b)) := by
  induction L with
  | nil => simp
  | cons b L ih =>
    rw [List.map_cons, List.sum_cons, ih, List.countP_cons]
    by_cases hq : q b
    · simp only [if_pos hq, hq]
      norm_num
      ring
    · simp [hq]

theorem sum_countP_eq {α β : Type} [DecidableEq β] (L : List α) (P : Finset β)
    (p : β → α → Bool) :
    (∑ x ∈ P, L.countP (p x)) =
      (L.map (fun b => (P.filter (fun x => p x b = true)).card)).sum := by
  induction L with
  | nil => simp
  | cons b L ih =>
    simp only [List.countP_cons, List.map_cons, List.sum_cons]
    rw [Finset.sum_add_distrib, ih]
    have : (∑ x ∈ P, if p x b then 1 else 0) =
        (P.filter (fun x => p x b = true)).card := by
      rw [Finset.card_filter]
    omega

theorem two_mul_card_filter_lt (s : Finset Nat) :
    2 * ((s ×ˢ s).filter (fun x => x.1 < x.2)).card = s.card * s.card - s.card := by
  have himg : ((s ×ˢ s).filter (fun x => x.1 < x.2)).image Prod.swap =
      (s ×ˢ s).filter (fun x => x.2 < x.1) := by
    ext x
    simp only [Finset.mem_image, Finset.mem_filter, Finset.mem_product]
    constructor
    · rintro ⟨a, ⟨⟨ha1, ha2⟩, hlt⟩, rfl⟩
      exact ⟨⟨ha2, ha1⟩, hlt⟩
    · rintro ⟨⟨hx1, hx2⟩, hlt⟩
      exact ⟨Prod.swap x, ⟨⟨hx2, hx1⟩, hlt⟩, Prod.swap_swap x⟩
  have hswap : ((s ×ˢ s).filter (fun x => x.1 < x.2)).card =
      ((s ×ˢ s).filter (fun x => x.2 < x.1)).card := by
    rw [← himg, Finset.card_image_of_injective _ Prod.swap_injective]
  have hdisj : Disjoint ((s ×ˢ s).filter (fun x => x.1 < x.2))
      ((s ×ˢ s).filter (fun x => x.2 < x.1)) := by
    rw [Finset.disjoint_left]
    intro x hx hx'
    rw [Finset.mem_filter] at hx hx'
    omega
  have hunion : (s ×ˢ s).filter (fun x => x.1 < x.2) ∪
      (s ×ˢ s).filter (fun x => x.2 < x.1) = s.offDiag := by
    ext x
    simp only [Finset.mem_union, Finset.mem_filter, Finset.mem_product,
      Finset.mem_offDiag]
    constructor
    · rintro (⟨⟨h1, h2⟩, h3⟩ | ⟨⟨h1, h2⟩, h3⟩)
      · exact ⟨h1, h2, by omega⟩
      · exact ⟨h1, h2, by omega⟩
    · rintro ⟨h1, h2, h3⟩
      rcases Nat.lt_or_ge x.1 x.2 with h | h
      · exact Or.inl ⟨⟨h1, h2⟩, h⟩
      · exact Or.inr ⟨⟨h1, h2⟩, by
          rcases Nat.eq_or_lt_of_le h with he | hl
          · exact absurd he.symm h3
          · exact hl⟩
  have hcards := Finset.card_union_of_disjoint hdisj
  rw [hunion, Finset.offDiag_card] at hcards
  omega

theorem countP_list_range (p : Nat → Bool) (v : Nat) :
    (List.range v).countP p = ((Finset.range v).filter (fun x => p x = true)).card := by
  induction v with
  | zero => simp
  | succ v ih =>
    rw [List.range_succ, List.countP_append, Finset.range_succ,
      Finset.filter_insert]
    have hnm : v ∉ (Finset.range v).filter (fun x => p x = true) := by
      intro hc
      exact absurd (Finset.mem_range.mp (Finset.mem_of_mem_filter v hc))
        (Nat.lt_irrefl v)
    by_cases hp : p v
    · rw [if_pos hp, Finset.card_insert_of_not_mem hnm, ih]
      simp [hp]
    · rw [if_neg hp, ih]
      simp [hp]

/-- Double counting the pairs of an STS: 3 pairs per block, every pair of
points exactly once, so 6b = v(v-1). -/
theorem isSTS_block_count {v : Nat} {blocks : List (Finset Nat)}
    (h : isSTS v blocks) : 6 * blocks.length = v * v - v := by
  obtain ⟨hblocks, hpairs⟩ := h
  have hsum := sum_countP_eq blocks
    (((Finset.range v) ×ˢ (Finset.range v)).filter (fun x => x.1 < x.2))
    (fun x b => decide (x.1 ∈ b ∧ x.2 ∈ b))
  have hlhs : (∑ x ∈ ((Finset.range v) ×ˢ (Finset.range v)).filter
      (fun x => x.1 < x.2),
      blocks.countP (fun b => decide (x.1 ∈ b ∧ x.2 ∈ b))) =
      (((Finset.range v) ×ˢ (Finset.range v)).filter (fun x => x.1 < x.2)).card := by
    rw [Finset.card_eq_sum_ones]
    apply Finset.sum_congr rfl
    intro x hx
    rw [Finset.mem_filter, Finset.mem_product] at hx
    exact hpairs x.1 hx.1.1 x.2 hx.1.2 (by omega)
  have hrhs : (blocks.map (fun b =>
      ((((Finset.range v) ×ˢ (Finset.range v)).filter (fun x => x.1 < x.2)).filter
        (fun x => decide (x.1 ∈ b ∧ x.2 ∈ b) = true)).card)).sum =
      (blocks.map (fun _ => 3)).sum := by
    apply congrArg
    apply List.map_congr_left
    intro b hb
    have hfeq : ((((Finset.range v) ×ˢ (Finset.range v)).filter
        (fun x => x.1 < x.2)).filter
        (fun x => decide (x.1 ∈ b ∧ x.2 ∈ b) = true)) =
        (b ×ˢ b).filter (fun x => x.1 < x.2) := by
      ext x
      simp only [Finset.mem_filter, Finset.mem_product, Finset.mem_range,
        decide_eq_true_eq]
      constructor
      · rintro ⟨⟨_, hlt⟩, hb1, hb2⟩
        exact ⟨⟨hb1, hb2⟩, hlt⟩
      · rintro ⟨⟨hb1, hb2⟩, hlt⟩
        exact ⟨⟨⟨Finset.mem_range.mp ((hblocks b hb).1 hb1),
          Finset.mem_range.mp ((hblocks b hb).1 hb2)⟩, hlt⟩, hb1, hb2⟩
    rw [hfeq]
    have h2 := two_mul_card_filter_lt b
    rw [(hblocks b hb).2] at h2
    omega
  rw [hlhs, hrhs, sum_map_constant] at hsum
  have hoff := two_mul_card_filter_lt (Finset.range v)
  rw [Finset.card_range] at hoff
  omega

/-- Double counting the pairs through one point: each block through the
point covers 2 such pairs, so 2r = v - 1. -/
theorem isSTS_replication {v : Nat} {blocks : List (Finset Nat)}
    (h : isSTS v blocks) {x : Nat} (hx : x < v) :
    2 * blocks.countP (fun b => decide (x ∈ b)) = v - 1 := by
  obtain ⟨hblocks, hpairs⟩ := h
  have hsum := sum_countP_eq blocks ((Finset.range v).erase x)
    (fun y b => decide (x ∈ b ∧ y ∈ b))
  have hlhs : (∑ y ∈ (Finset.range v).erase x,
      blocks.countP (fun b => decide (x ∈ b ∧ y ∈ b))) =
      ((Finset.range v).erase x).card := by
    rw [Finset.card_eq_sum_ones]
    apply Finset.sum_congr rfl
    intro y hy
    rw [Finset.mem_erase, Finset.mem_range] at hy
    have := hpairs x (Finset.mem_range.mpr hx) y (Finset.mem_range.mpr hy.2)
      (Ne.symm hy.1)
    calc blocks.countP (fun b => decide (x ∈ b ∧ y ∈ b)) =
        blocks.countP (fun b => decide (x ∈ b ∧ y ∈ b)) := rfl
    _ = 1 := this
  have hrhs : (blocks.map (fun b =>
      (((Finset.range v).erase x).filter
        (fun y => decide (x ∈ b ∧ y ∈ b) = true)).card)).sum =
      (blocks.map (fun b => if x ∈ b then 2 else 0)).sum := by
    apply congrArg
    apply List.map_congr_left
    intro b hb
    by_cases hxb : x ∈ b
    · rw [if_pos hxb]
      have hfeq : ((Finset.range v).erase x).filter
          (fun y => decide (x ∈ b ∧ y ∈ b) = true) = b.erase x := by
        ext y
        simp only [Finset.mem_filter, Finset.mem_erase, Finset.mem_range,
          decide_eq_true_eq]
        constructor
        · rintro ⟨⟨hne, _⟩, _, hyb⟩
          exact ⟨hne, hyb⟩
        · rintro ⟨hne, hyb⟩
          exact ⟨⟨hne, Finset.mem_range.mp ((hblocks b hb).1 hyb)⟩, hxb, hyb⟩
      rw [hfeq, Finset.card_erase_of_mem hxb, (hblocks b hb).2]
    · rw [if_neg hxb]
      have hfeq : ((Finset.range v).erase x).filter
          (fun y => decide (x ∈ b ∧ y ∈ b) = true) = ∅ := by
        ext y
        simp only [Finset.mem_filter, decide_eq_true_eq, Finset.not_mem_empty,
          iff_false]
        rintro ⟨_, hxb', _⟩
        exact hxb hxb'
      rw [hfeq, Finset.card_empty]
  rw [hlhs, hrhs, sum_map_ite,
    Finset.card_erase_of_mem (Finset.mem_range.mpr hx), Finset.card_range] at hsum
  omega


theorem count_true_map_decide {α : Type} (l : List α) (q : α → Prop)
    [DecidablePred q] :
    (l.map (fun a => decide (q a))).count true = l.countP (fun a => decide (q a)) := by
  induction l with
  | nil => simp
  | cons a l ih =>
    rw [List.map_cons, List.count_cons, List.countP_cons, ih]
    simp

/-- The structural content of `sts(v)` over any Steiner triple system:
t = v, n = b = v(v-1)/6, every column has 3 ones and every row (v-1)/2. -/
theorem sts_n_eq {v : Nat} {blocks : List (Finset Nat)} (h : isSTS v blocks) :
    (CFF.sts v blocks).n = v * (v - 1) / 6 := by
  have h6 := isSTS_block_count h
  have hvv : v * v - v = v * (v - 1) := by
    cases v with
    | zero => simp
    | succ u =>
      rw [Nat.succ_sub_one,
        show (u + 1) * (u + 1) = (u + 1) * u + (u + 1) by ring]
      omega
  rw [hvv] at h6
  show blocks.length = v * (v - 1) / 6
  rw [← h6, Nat.mul_div_cancel_left _ (show 0 < 6 by norm_num)]

theorem sts_col_popcount {v : Nat} {blocks : List (Finset Nat)}
    (h : isSTS v blocks) {j : Nat} (hj : j < blocks.length) :
    CFF.popcount ((CFF.sts v blocks).cols.getD j []) = 3 := by
  have hcols := CFF.cols_getD (CFF.sts v blocks) (show j < (CFF.sts v blocks).n from hj)
  rw [hcols]
  show CFF.popcount (((List.range v).map
    (fun p => blocks.map (fun b => decide (p ∈ b)))).map
    (fun row => row.getD j false)) = 3
  rw [List.map_map]
  have hmapeq : (List.range v).map
      ((fun row => row.getD j false) ∘ (fun p => blocks.map (fun b => decide (p ∈ b)))) =
      (List.range v).map (fun p => decide (p ∈ blocks.getD j ∅)) := by
    apply List.map_congr_left
    intro p _
    exact getD_map_lt (fun b => decide (p ∈ b)) blocks ∅ false hj
  rw [hmapeq, CFF.popcount, count_true_map_decide, countP_list_range]
  have hbj : blocks.getD j ∅ ∈ blocks := getD_mem_of_lt _ _ hj
  have hfeq : (Finset.range v).filter
      (fun x => decide (x ∈ blocks.getD j ∅) = true) =
      (Finset.range v).filter (fun x => x ∈ blocks.getD j ∅) := by
    ext x
    simp
  rw [hfeq, Finset.filter_mem_eq_inter,
    Finset.inter_eq_right.mpr (h.1 _ hbj).1]
  exact (h.1 _ hbj).2

theorem sts_row_popcount {v : Nat} {blocks : List (Finset Nat)}
    (h : isSTS v blocks) {i : Nat} (hi : i < v) :
    CFF.popcount ((CFF.sts v blocks).rows.getD i []) = (v - 1) / 2 := by
  show CFF.popcount (((List.range v).map
    (fun p => blocks.map (fun b => decide (p ∈ b)))).getD i []) = (v - 1) / 2
  rw [getD_map_range _ _ hi, CFF.popcount, count_true_map_decide]
  have := isSTS_replication h hi
  omega

/-! ### Concrete instances used throughout the test suite -/

theorem isSTS_sts9 : isSTS 9 sts9blocks := by decide

theorem isSTS_sts13 : isSTS 13 sts13blocks := by decide

theorem verify_sts9 : (CFF.sts 9 sts9blocks).verify = true := by decide

theorem verify_sts13 : (CFF.sts 13 sts13blocks).verify = true := by decide

theorem coverFree_sts9 : (CFF.sts 9 sts9blocks).CoverFree :=
  (CFF.verify_eq_true_iff _).mp verify_sts9

theorem coverFree_sts13 : (CFF.sts 13 sts13blocks).CoverFree :=
  (CFF.verify_eq_true_iff _).mp verify_sts13

/-! ### A sufficient condition for cover-freeness: bounded pairwise
intersections and large column weight -/

namespace CFF

/-- The support of column `j` as a finite set of row indices. -/
def suppF (c : CFF) (j : Nat) : Finset Nat :=
  (Finset.range c.t).filter (fun i => c.colBit j i = true)

theorem mem_suppF {c : CFF} {j i : Nat} :
    i ∈ c.suppF j ↔ i < c.t ∧ c.colBit j i = true := by
  rw [suppF, Finset.mem_filter, Finset.mem_range]

/-- If every column has more than d·lam ones and any two distinct columns
share at most lam rows, then any d other columns miss part of every
column's support. -/
theorem CoverFree_of_bounded_inter (c : CFF) (lam : Nat)
    (hw : ∀ j, j < c.n → c.d * lam < (c.suppF j).card)
    (hinter : ∀ j k, j < c.n → k < c.n → j ≠ k →
      ((c.suppF j) ∩ (c.suppF k)).card ≤ lam) :
    c.CoverFree := by
  intro j hj S hS
  rw [Finset.mem_range] at hj
  rw [Finset.mem_powersetCard] at hS
  obtain ⟨hSsub, hScard⟩ := hS
  have hmem : ∀ k ∈ S, k ≠ j ∧ k < c.n := by
    intro k hk
    have := hSsub hk
    rw [Finset.mem_erase, Finset.mem_range] at this
    exact this
  have hcardB : (S.biUnion (fun k => c.suppF j ∩ c.suppF k)).card ≤ c.d * lam := by
    calc (S.biUnion (fun k => c.suppF j ∩ c.suppF k)).card
        ≤ ∑ k ∈ S, (c.suppF j ∩ c.suppF k).card := Finset.card_biUnion_le
    _ ≤ ∑ _k ∈ S, lam := Finset.sum_le_sum
        (fun k hk => hinter j k hj (hmem k hk).2 (Ne.symm (hmem k hk).1))
    _ = S.card * lam := by rw [Finset.sum_const, smul_eq_mul]
    _ = c.d * lam := by rw [hScard]
  have hnsub : ¬ (c.suppF j ⊆ S.biUnion (fun k => c.suppF j ∩ c.suppF k)) := by
    intro hsub
    have hle := Finset.card_le_card hsub
    have hgt := hw j hj
    omega
  rw [Finset.not_subset] at hnsub
  obtain ⟨i, hisupp, hinB⟩ := hnsub
  have hisupp' := mem_suppF.mp hisupp
  refine ⟨i, Finset.mem_range.mpr hisupp'.1, hisupp'.2, ?_⟩
  intro k hk
  cases hcb : c.colBit k i with
  | false => rfl
  | true =>
    exfalso
    apply hinB
    rw [Finset.mem_biUnion]
    exact ⟨k, hk, Finset.mem_inter.mpr
      ⟨hisupp, mem_suppF.mpr ⟨hisupp'.1, hcb⟩⟩⟩

end CFF

/-! ### The CFF table -/

/-- Modelled from the spec (§4.4): the polynomial CFF family over a prime q.
Items are the q² linear polynomials a + b·x over GF(q) (item j encodes
a = j / q, b = j % q), tests are the q² pairs (x, y) (test i encodes
x = i / q, y = i % q), and the entry is 1 iff a + b·x ≡ y (mod q). Two
distinct linear polynomials agree on at most one point, so the family is
d-cover-free for every d < q. -/
def polyCFF (d q : Nat) : CFF :=
  ⟨d, q * q, q * q,
    (List.range (q * q)).map (fun i => (List.range (q * q)).map (fun j =>
      decide ((j / q + (j % q) * (i / q)) % q = i % q)))⟩

/-- Trial-division primality test (executable in the kernel). -/
def isPrime (q : Nat) : Bool :=
  decide (2 ≤ q) && (List.range q).all (fun m => decide (m < 2) || decide (q % m ≠ 0))

theorem isPrime_iff {q : Nat} : isPrime q = true ↔ Nat.Prime q := by
  rw [isPrime, Bool.and_eq_true, decide_eq_true_iff, List.all_eq_true,
    Nat.prime_def_lt]
  constructor
  · rintro ⟨h2, hall⟩
    refine ⟨h2, ?_⟩
    intro m hm hdvd
    have hmem := hall m (List.mem_range.mpr hm)
    rw [Bool.or_eq_true, decide_eq_true_iff, decide_eq_true_iff] at hmem
    match m, hmem with
    | 0, _ => exact absurd (Nat.eq_zero_of_zero_dvd hdvd) (by omega)
    | 1, _ => rfl
    | m + 2, hmem =>
      rcases hmem with hlt | hnd
      · omega
      · exact absurd (Nat.dvd_iff_mod_eq_zero.mp hdvd) hnd
  · rintro ⟨h2, hall⟩
    refine ⟨h2, ?_⟩
    intro m hmem
    rw [List.mem_range] at hmem
    rw [Bool.or_eq_true, decide_eq_true_iff, decide_eq_true_iff]
    rcases Nat.lt_or_ge m 2 with hlt | hge
    · exact Or.inl hlt
    · refine Or.inr ?_
      intro hmod
      have hdvd : m ∣ q := Nat.dvd_iff_mod_eq_zero.mpr hmod
      have := hall m hmem hdvd
      omega

/-- Modelled from the spec (§3, §4.4): the table is configured by the bounds
(d_max, t_max, n_max), which it exposes unchanged. -/
structure CFFTable where
  d_max : Nat
  t_max : Nat
  n_max : Nat
deriving DecidableEq, Repr

namespace CFFTable

/-- Modelled from the spec (§4.4): `get_by_t(d, t)` returns a CFF with
cover-free degree d and exactly t rows (exact match on t, no nearest-match
relaxation); the registered construction behind it is modelled as the
identity family. Queries outside the configured bounds, or for which no
construction is known, return no CFF (`NotFoundError`). -/
def get_by_t (tab : CFFTable) (d t : Nat) : Option CFF :=
  if d ≤ tab.d_max ∧ t ≤ tab.t_max ∧ t ≤ tab.n_max ∧ 0 < d ∧ d < t then
    some (CFF.identity d t)
  else none

/-- Modelled from the spec (§4.4): `get_by_n(d, n, exact)` returns a CFF
with exactly n columns when exact is true, and the constructible candidate
with the smallest n' ≥ n otherwise (nearest-above semantics). The library's
registry of candidate constructions is not in this repository's sources; it
is modelled as the polynomial family with n' = q² over primes q > d, which
reproduces the observed behavior that requesting n = 24 non-exactly yields
the n' = 25 family. -/
def get_by_n (tab : CFFTable) (d n : Nat) (exact : Bool) : Option CFF :=
  if exact then
    if d ≤ tab.d_max ∧ n ≤ tab.n_max then
      match CFF.findFrom (fun q => isPrime q && decide (d < q) &&
          decide (q * q = n)) 0 (n + 1) with
      | some q => some (polyCFF d q)
      | none => none
    else none
  else
    if d ≤ tab.d_max then
      match CFF.findFrom (fun q => isPrime q && decide (d < q) &&
          decide (n ≤ q * q) && decide (q * q ≤ tab.n_max)) 0 (tab.n_max + 1) with
      | some q => some (polyCFF d q)
      | none => none
    else none

theorem get_by_t_some {tab : CFFTable} {d t : Nat} {c : CFF}
    (h : get_by_t tab d t = some c) :
    c.d = d ∧ c.t = t ∧ c.verify = true := by
  unfold get_by_t at h
  by_cases hcond : d ≤ tab.d_max ∧ t ≤ tab.t_max ∧ t ≤ tab.n_max ∧ 0 < d ∧ d < t
  · rw [if_pos hcond] at h
    cases h
    exact ⟨rfl, rfl, CFF.verify_identity d t⟩
  · rw [if_neg hcond] at h
    cases h

theorem get_by_n_exact_some {tab : CFFTable} {d n : Nat} {c : CFF}
    (h : get_by_n tab d n true = some c) : c.d = d ∧ c.n = n := by
  unfold get_by_n at h
  rw [if_pos rfl] at h
  by_cases hcond : d ≤ tab.d_max ∧ n ≤ tab.n_max
  · rw [if_pos hcond] at h
    cases hfind : CFF.findFrom (fun q => isPrime q && decide (d < q) &&
        decide (q * q = n)) 0 (n + 1) with
    | none => rw [hfind] at h; cases h
    | some q =>
      rw [hfind] at h
      cases h
      have hq := (CFF.findFrom_some hfind).1
      simp only [Bool.and_eq_true, decide_eq_true_eq] at hq
      exact ⟨rfl, hq.2⟩
  · rw [if_neg hcond] at h
    cases h

theorem get_by_n_nonexact_some {tab : CFFTable} {d n : Nat} {c : CFF}
    (h : get_by_n tab d n false = some c) :
    c.d = d ∧ n ≤ c.n ∧
      ∀ q, Nat.Prime q → d < q → n ≤ q * q → q * q ≤ tab.n_max → c.n ≤ q * q := by
  unfold get_by_n at h
  rw [if_neg (by simp)] at h
  by_cases hd : d ≤ tab.d_max
  · rw [if_pos hd] at h
    cases hfind : CFF.findFrom (fun q => isPrime q && decide (d < q) &&
        decide (n ≤ q * q) && decide (q * q ≤ tab.n_max)) 0 (tab.n_max + 1) with
    | none => rw [hfind] at h; cases h
    | some q =>
      rw [hfind] at h
      cases h
      obtain ⟨hq, _, hqmin⟩ := CFF.findFrom_some hfind
      simp only [Bool.and_eq_true, decide_eq_true_eq] at hq
      refine ⟨rfl, hq.1.2, ?_⟩
      intro q' hq'p hq'd hq'n hq'max
      show q * q ≤ q' * q'
      have hqle : q ≤ q' := by
        by_contra hgt
        have hfalse := hqmin q' (Nat.zero_le _) (by omega)
        rw [Bool.eq_false_iff] at hfalse
        exact hfalse (by
          simp only [Bool.and_eq_true, decide_eq_true_eq]
          exact ⟨⟨⟨isPrime_iff.mpr hq'p, hq'd⟩, hq'n⟩, hq'max⟩)
      exact Nat.mul_le_mul hqle hqle
  · rw [if_neg hd] at h
    cases h

end CFFTable

/-! ### Concrete table instances -/

theorem poly25_card : ∀ j ∈ Finset.range 25, 3 < ((polyCFF 3 5).suppF j).card := by
  decide

theorem poly25_inter : ∀ j ∈ Finset.range 25, ∀ k ∈ Finset.range 25, j ≠ k →
    (((polyCFF 3 5).suppF j) ∩ ((polyCFF 3 5).suppF k)).card ≤ 1 := by decide

theorem verify_poly25 : (polyCFF 3 5).verify = true := by
  rw [CFF.verify_eq_true_iff]
  apply CFF.CoverFree_of_bounded_inter _ 1
  · intro j hj
    exact poly25_card j (Finset.mem_range.mpr hj)
  · intro j k hj hk hne
    exact poly25_inter j (Finset.mem_range.mpr hj) k (Finset.mem_range.mpr hk) hne

theorem get_by_n_exact_25 :
    CFFTable.get_by_n ⟨3, 200, 50000⟩ 3 25 true = some (polyCFF 3 5) := by rfl

theorem get_by_n_nonexact_24 :
    CFFTable.get_by_n ⟨3, 200, 50000⟩ 3 24 false = some (polyCFF 3 5) := by rfl

theorem get_by_t_2_15 :
    CFFTable.get_by_t ⟨2, 100, 1000⟩ 2 15 = some (CFF.identity 2 15) := by rfl

theorem extend_sts9_eval :
    CFF.extend_by_one (CFF.sts 9 sts9blocks) =
      Except.ok (CFF.appendColumn (CFF.sts 9 sts9blocks) 11) := by rfl

/-! ## The claims -/

/-- C1 (amended): the verifier decides cover-freeness correctly on the two
reference families — `identity(d, n).verify()` is true for every
0 < d < n, and `all_zeros(d, t, n).verify()` is false whenever d ≥ 1 and
n > d (for 1 < n ≤ d no size-d subset of the remaining columns exists, so
the spec's verifier is vacuously true there). -/
theorem claim_C1 :
    (∀ d n : Nat, 0 < d → d < n → (CFF.identity d n).verify = true) ∧
    (∀ d t n : Nat, 1 ≤ d → d < n → (CFF.all_zeros d t n).verify = false) := by
  constructor
  · intro d n _ _
    exact CFF.verify_identity d n
  · intro d t n _ hdn
    exact CFF.verify_all_zeros_false d t hdn

/-- C1 counterexample: at d = 2, t = 10, n = 2 we have d ≥ 1 and n > 1, yet
`all_zeros(2, 10, 2).verify()` is true — there is no size-2 subset of the
single remaining column, so the cover-free check is vacuous. -/
theorem claim_C1_counterexample :
    1 ≤ 2 ∧ 1 < 2 ∧ (CFF.all_zeros 2 10 2).verify = true :=
  ⟨by norm_num, by norm_num, by decide⟩

/-- C1 witness: the amended claim evaluated at identity(2, 5) and
all_zeros(2, 3, 5). -/
theorem claim_C1_witness :
    (0 < 2 ∧ 2 < 5 ∧ (CFF.identity 2 5).verify = true) ∧
    (1 ≤ 2 ∧ 2 < 5 ∧ (CFF.all_zeros 2 3 5).verify = false) :=
  ⟨⟨by norm_num, by norm_num, claim_C1.1 2 5 (by norm_num) (by norm_num)⟩,
   ⟨by norm_num, by norm_num, claim_C1.2 2 3 5 (by norm_num) (by norm_num)⟩⟩

/-- C2: for every structurally consistent (live) CFF the derived views are
mutually consistent with the incidence matrix — len(rows) = t,
len(cols) = n, rows[i][j] = cols[j][i], len(pools[i]) = popcount(rows[i]),
len(subsets[j]) = popcount(cols[j]) — and every constructor produces a
structurally consistent CFF (given structurally consistent inputs). -/
theorem claim_C2 :
    (∀ c : CFF, c.SWf → c.ViewConsistent) ∧
    (∀ d t n, (CFF.all_zeros d t n).SWf) ∧
    (∀ d n, (CFF.identity d n).SWf) ∧
    (∀ n, (CFF.sperner n).SWf) ∧
    (∀ v blocks, (CFF.sts v blocks).SWf) ∧
    (∀ l r : CFF, l.SWf → r.SWf → (CFF.add l r).SWf) ∧
    (∀ l r : CFF, (CFF.kronecker l r).SWf) ∧
    (∀ c : CFF, c.SWf → (CFF.double c).SWf) ∧
    (∀ c c' : CFF, c.SWf → CFF.extend_by_one c = Except.ok c' → c'.SWf) :=
  ⟨CFF.viewConsistent_of_SWf, CFF.SWf_all_zeros, CFF.SWf_identity,
   CFF.SWf_sperner, CFF.SWf_sts,
   fun _ _ hl hr => CFF.SWf_add hl hr,
   CFF.SWf_kronecker,
   fun _ hc => CFF.SWf_add hc hc,
   fun _ _ hc h => CFF.extend_by_one_SWf hc h⟩

/-- C2 witness: the view-consistency and closure statements evaluated at the
concrete STS-based families. -/
theorem claim_C2_witness :
    (CFF.sts 13 sts13blocks).ViewConsistent ∧
    (CFF.add (CFF.sts 9 sts9blocks) (CFF.sts 13 sts13blocks)).SWf ∧
    (CFF.double (CFF.sts 9 sts9blocks)).SWf :=
  ⟨claim_C2.1 (CFF.sts 13 sts13blocks) (by decide),
   claim_C2.2.2.2.2.2.1 (CFF.sts 9 sts9blocks) (CFF.sts 13 sts13blocks)
     (by decide) (by decide),
   claim_C2.2.2.2.2.2.2.2.1 (CFF.sts 9 sts9blocks) (by decide)⟩

/-- C3: `get_by_n` with exact=True returns a CFF with exactly the requested
number of columns; with exact=False it returns the constructible candidate
with the smallest n' ≥ n; on CFFTable(3, 200, 50000), get_by_n(3, 25,
exact=True) and get_by_n(3, 24, exact=False) both return a CFF with n = 25,
d = 3 and a true verifier. -/
theorem claim_C3 :
    (∀ (tab : CFFTable) (d n : Nat) (c : CFF),
      tab.get_by_n d n true = some c → c.d = d ∧ c.n = n) ∧
    (∀ (tab : CFFTable) (d n : Nat) (c : CFF),
      tab.get_by_n d n false = some c →
        c.d = d ∧ n ≤ c.n ∧
        ∀ q, Nat.Prime q → d < q → n ≤ q * q → q * q ≤ tab.n_max →
          c.n ≤ q * q) ∧
    (∃ c : CFF, CFFTable.get_by_n ⟨3, 200, 50000⟩ 3 25 true = some c ∧
      c.d = 3 ∧ c.n = 25 ∧ c.verify = true) ∧
    (∃ c : CFF, CFFTable.get_by_n ⟨3, 200, 50000⟩ 3 24 false = some c ∧
      c.d = 3 ∧ c.n = 25 ∧ c.verify = true) :=
  ⟨fun _ _ _ _ h => CFFTable.get_by_n_exact_some h,
   fun _ _ _ _ h => CFFTable.get_by_n_nonexact_some h,
   ⟨polyCFF 3 5, get_by_n_exact_25, rfl, rfl, verify_poly25⟩,
   ⟨polyCFF 3 5, get_by_n_nonexact_24, rfl, rfl, verify_poly25⟩⟩

/-- C3 witness: the exact and nearest-above statements evaluated on
CFFTable(3, 200, 50000). -/
theorem claim_C3_witness :
    ((polyCFF 3 5).d = 3 ∧ (polyCFF 3 5).n = 25) ∧ 24 ≤ (polyCFF 3 5).n :=
  ⟨claim_C3.1 ⟨3, 200, 50000⟩ 3 25 (polyCFF 3 5) (by rfl),
   (claim_C3.2.1 ⟨3, 200, 50000⟩ 3 24 (polyCFF 3 5) (by rfl)).2.1⟩

/-- C4: `add(left, right)` is the block-diagonal direct sum — t' = t_l +
t_r, n' = n_l + n_r, d' = min(d_l, d_r), the left input in the top-left
block, the right input in the bottom-right block and zeros elsewhere — and
add(sts(9), sts(13)) passes the verifier. -/
theorem claim_C4 :
    (∀ l r : CFF, l.SWf → r.SWf →
      (CFF.add l r).t = l.t + r.t ∧ (CFF.add l r).n = l.n + r.n ∧
      (CFF.add l r).d = min l.d r.d ∧
      (∀ i j, i < l.t → j < l.n → (CFF.add l r).colBit j i = l.colBit j i) ∧
      (∀ i j, i < l.t → l.n ≤ j → (CFF.add l r).colBit j i = false) ∧
      (∀ i j, l.t ≤ i → i < l.t + r.t → j < l.n →
        (CFF.add l r).colBit j i = false) ∧
      (∀ i j, l.t ≤ i → i < l.t + r.t → l.n ≤ j →
        (CFF.add l r).colBit j i = r.colBit (j - l.n) (i - l.t))) ∧
    (CFF.add (CFF.sts 9 sts9blocks) (CFF.sts 13 sts13blocks)).verify = true := by
  constructor
  · intro l r hl hr
    refine ⟨rfl, rfl, rfl, ?_, ?_, ?_, ?_⟩
    · intro i j hi hj; exact CFF.colBit_add_tl hl hi hj
    · intro i j hi hj; exact CFF.colBit_add_tr hl hi hj
    · intro i j hi1 hi2 hj; exact CFF.colBit_add_bl hl hr hi1 hi2 hj
    · intro i j hi1 hi2 hj; exact CFF.colBit_add_br hl hr hi1 hi2 hj
  · rw [CFF.verify_eq_true_iff]
    exact CFF.CoverFree_add (by decide) (by decide) coverFree_sts9 coverFree_sts13
      (by decide) (by decide)

/-- C4 witness: the direct-sum shape evaluated at sts(9) and sts(13). -/
theorem claim_C4_witness :
    (CFF.add (CFF.sts 9 sts9blocks) (CFF.sts 13 sts13blocks)).t =
      (CFF.sts 9 sts9blocks).t + (CFF.sts 13 sts13blocks).t ∧
    (CFF.add (CFF.sts 9 sts9blocks) (CFF.sts 13 sts13blocks)).n =
      (CFF.sts 9 sts9blocks).n + (CFF.sts 13 sts13blocks).n :=
  ⟨(claim_C4.1 (CFF.sts 9 sts9blocks) (CFF.sts 13 sts13blocks)
      (by decide) (by decide)).1,
   (claim_C4.1 (CFF.sts 9 sts9blocks) (CFF.sts 13 sts13blocks)
      (by decide) (by decide)).2.1⟩

/-- C5: `kronecker(left, right)` is the tensor product — t' = t_l · t_r,
n' = n_l · n_r, d' = min(d_l, d_r), entry ((i1,i2),(j1,j2)) =
left[i1,j1] AND right[i2,j2] — and kronecker(sts(9), sts(13)) passes the
verifier. -/
theorem claim_C5 :
    (∀ l r : CFF, l.SWf → r.SWf →
      (CFF.kronecker l r).t = l.t * r.t ∧ (CFF.kronecker l r).n = l.n * r.n ∧
      (CFF.kronecker l r).d = min l.d r.d ∧
      (∀ i1 i2 j1 j2, i1 < l.t → i2 < r.t → j1 < l.n → j2 < r.n →
        (CFF.kronecker l r).colBit (j1 * r.n + j2) (i1 * r.t + i2) =
          (l.colBit j1 i1 && r.colBit j2 i2))) ∧
    (CFF.kronecker (CFF.sts 9 sts9blocks) (CFF.sts 13 sts13blocks)).verify =
      true := by
  constructor
  · intro l r _ _
    refine ⟨rfl, rfl, rfl, ?_⟩
    intro i1 i2 j1 j2 hi1 hi2 hj1 hj2
    have hilt : i1 * r.t + i2 < l.t * r.t := by
      calc i1 * r.t + i2 < i1 * r.t + r.t := by omega
      _ = (i1 + 1) * r.t := by ring
      _ ≤ l.t * r.t := Nat.mul_le_mul_right _ (by omega)
    have hjlt : j1 * r.n + j2 < l.n * r.n := by
      calc j1 * r.n + j2 < j1 * r.n + r.n := by omega
      _ = (j1 + 1) * r.n := by ring
      _ ≤ l.n * r.n := Nat.mul_le_mul_right _ (by omega)
    rw [CFF.colBit_kronecker l r hilt hjlt]
    rw [show (j1 * r.n + j2) / r.n = j1 by
        rw [Nat.mul_comm j1 r.n, Nat.mul_add_div (by omega),
          Nat.div_eq_of_lt hj2, Nat.add_zero],
      show (j1 * r.n + j2) % r.n = j2 by
        rw [Nat.mul_comm j1 r.n, Nat.mul_add_mod, Nat.mod_eq_of_lt hj2],
      show (i1 * r.t + i2) / r.t = i1 by
        rw [Nat.mul_comm i1 r.t, Nat.mul_add_div (by omega),
          Nat.div_eq_of_lt hi2, Nat.add_zero],
      show (i1 * r.t + i2) % r.t = i2 by
        rw [Nat.mul_comm i1 r.t, Nat.mul_add_mod, Nat.mod_eq_of_lt hi2]]
  · rw [CFF.verify_eq_true_iff]
    exact CFF.CoverFree_kronecker coverFree_sts9 coverFree_sts13
      (by decide) (by decide)

/-- C5 witness: the tensor-product shape evaluated at sts(9) and sts(13). -/
theorem claim_C5_witness :
    (CFF.kronecker (CFF.sts 9 sts9blocks) (CFF.sts 13 sts13blocks)).t =
      (CFF.sts 9 sts9blocks).t * (CFF.sts 13 sts13blocks).t ∧
    (CFF.kronecker (CFF.sts 9 sts9blocks) (CFF.sts 13 sts13blocks)).n =
      (CFF.sts 9 sts9blocks).n * (CFF.sts 13 sts13blocks).n :=
  ⟨(claim_C5.1 (CFF.sts 9 sts9blocks) (CFF.sts 13 sts13blocks)
      (by decide) (by decide)).1,
   (claim_C5.1 (CFF.sts 9 sts9blocks) (CFF.sts 13 sts13blocks)
      (by decide) (by decide)).2.1⟩

/-- C6: for every v ≡ 1 or 3 (mod 6) and every Steiner triple system on v
points, sts(v) has t = v rows and n = v(v-1)/6 columns, every column has
exactly 3 ones and every row exactly (v-1)/2 ones; sts(13) has 13 rows and
26 columns, and sts(9) and sts(13) pass the verifier. -/
theorem claim_C6 :
    (∀ v blocks, (v % 6 = 1 ∨ v % 6 = 3) → isSTS v blocks →
      (CFF.sts v blocks).t = v ∧
      (CFF.sts v blocks).n = v * (v - 1) / 6 ∧
      (∀ j, j < (CFF.sts v blocks).n →
        CFF.popcount ((CFF.sts v blocks).cols.getD j []) = 3) ∧
      (∀ i, i < (CFF.sts v blocks).t →
        CFF.popcount ((CFF.sts v blocks).rows.getD i []) = (v - 1) / 2)) ∧
    (CFF.sts 13 sts13blocks).rows.length = 13 ∧
    (CFF.sts 13 sts13blocks).cols.length = 26 ∧
    (CFF.sts 9 sts9blocks).verify = true ∧
    (CFF.sts 13 sts13blocks).verify = true := by
  refine ⟨?_, by decide, by decide, verify_sts9, verify_sts13⟩
  intro v blocks _ h
  refine ⟨rfl, sts_n_eq h, ?_, ?_⟩
  · intro j hj
    exact sts_col_popcount h hj
  · intro i hi
    exact sts_row_popcount h hi

/-- C6 witness: the structural statement evaluated on the concrete STS(9). -/
theorem claim_C6_witness :
    (9 % 6 = 1 ∨ 9 % 6 = 3) ∧ isSTS 9 sts9blocks ∧
    (CFF.sts 9 sts9blocks).t = 9 ∧ (CFF.sts 9 sts9blocks).n = 9 * (9 - 1) / 6 :=
  ⟨Or.inr (by norm_num), by decide,
   (claim_C6.1 9 sts9blocks (Or.inr (by norm_num)) (by decide)).1,
   (claim_C6.1 9 sts9blocks (Or.inr (by norm_num)) (by decide)).2.1⟩

/-- C7: `double` doubles both dimensions and preserves the degree, and
double(sts(9)) passes the verifier. -/
theorem claim_C7 :
    (∀ c : CFF, c.SWf →
      (CFF.double c).t = 2 * c.t ∧ (CFF.double c).n = 2 * c.n ∧
      (CFF.double c).d = c.d) ∧
    (CFF.double (CFF.sts 9 sts9blocks)).verify = true := by
  constructor
  · intro c _
    refine ⟨?_, ?_, ?_⟩
    · show c.t + c.t = 2 * c.t
      omega
    · show c.n + c.n = 2 * c.n
      omega
    · show min c.d c.d = c.d
      exact Nat.min_self c.d
  · rw [CFF.verify_eq_true_iff]
    exact CFF.CoverFree_add (by decide) (by decide) coverFree_sts9 coverFree_sts9
      (by decide) (by decide)

/-- C7 witness: the doubling shape evaluated at sts(9). -/
theorem claim_C7_witness :
    (CFF.double (CFF.sts 9 sts9blocks)).t = 2 * (CFF.sts 9 sts9blocks).t ∧
    (CFF.double (CFF.sts 9 sts9blocks)).n = 2 * (CFF.sts 9 sts9blocks).n :=
  ⟨(claim_C7.1 (CFF.sts 9 sts9blocks) (by decide)).1,
   (claim_C7.1 (CFF.sts 9 sts9blocks) (by decide)).2.1⟩

/-- C8: `extend_by_one` either returns a CFF with the same d, the same t
and exactly n + 1 columns that still passes the verifier, or fails with
ConstructionError; it never returns a partially built CFF. On sts(9) it
succeeds and the result passes the verifier. -/
theorem claim_C8 :
    (∀ c c' : CFF, CFF.extend_by_one c = Except.ok c' →
      c'.d = c.d ∧ c'.t = c.t ∧ c'.n = c.n + 1 ∧ c'.verify = true) ∧
    (∀ c c' : CFF, c.SWf → CFF.extend_by_one c = Except.ok c' → c'.SWf) ∧
    (∀ c : CFF, (∃ c', CFF.extend_by_one c = Except.ok c') ∨
      CFF.extend_by_one c = Except.error "ConstructionError") ∧
    (∃ c' : CFF, CFF.extend_by_one (CFF.sts 9 sts9blocks) = Except.ok c' ∧
      c'.verify = true ∧ c'.t = 9 ∧ c'.n = 13) :=
  ⟨fun _ _ h => CFF.extend_by_one_ok h,
   fun _ _ hc h => CFF.extend_by_one_SWf hc h,
   CFF.extend_by_one_total,
   ⟨CFF.appendColumn (CFF.sts 9 sts9blocks) 11, extend_sts9_eval,
    (CFF.extend_by_one_ok extend_sts9_eval).2.2.2, rfl, rfl⟩⟩

/-- C8 witness: the success contract evaluated on sts(9). -/
theorem claim_C8_witness :
    CFF.extend_by_one (CFF.sts 9 sts9blocks) =
      Except.ok (CFF.appendColumn (CFF.sts 9 sts9blocks) 11) ∧
    (CFF.appendColumn (CFF.sts 9 sts9blocks) 11).n =
      (CFF.sts 9 sts9blocks).n + 1 ∧
    (CFF.appendColumn (CFF.sts 9 sts9blocks) 11).verify = true :=
  ⟨extend_sts9_eval,
   (claim_C8.1 (CFF.sts 9 sts9blocks)
     (CFF.appendColumn (CFF.sts 9 sts9blocks) 11) extend_sts9_eval).2.2.1,
   (claim_C8.1 (CFF.sts 9 sts9blocks)
     (CFF.appendColumn (CFF.sts 9 sts9blocks) 11) extend_sts9_eval).2.2.2⟩

/-- C9: `get_by_t(d, t)` returns a CFF with exactly t rows and degree d (no
nearest-match relaxation on t); CFFTable(2, 100, 1000).get_by_t(2, 15)
returns a CFF with d = 2, t = 15 and a true verifier. -/
theorem claim_C9 :
    (∀ (tab : CFFTable) (d t : Nat) (c : CFF),
      tab.get_by_t d t = some c → c.d = d ∧ c.t = t) ∧
    (∃ c : CFF, CFFTable.get_by_t ⟨2, 100, 1000⟩ 2 15 = some c ∧
      c.d = 2 ∧ c.t = 15 ∧ c.verify = true) :=
  ⟨fun _ _ _ _ h => ⟨(CFFTable.get_by_t_some h).1, (CFFTable.get_by_t_some h).2.1⟩,
   ⟨CFF.identity 2 15, get_by_t_2_15, rfl, rfl, CFF.verify_identity 2 15⟩⟩

/-- C9 witness: the exact-row contract evaluated on CFFTable(2, 100, 1000). -/
theorem claim_C9_witness :
    (CFF.identity 2 15).d = 2 ∧ (CFF.identity 2 15).t = 15 :=
  claim_C9.1 ⟨2, 100, 1000⟩ 2 15 (CFF.identity 2 15) (by rfl)

/-- C10: a table constructed from (d_max, t_max, n_max) exposes those three
bounds unchanged. -/
theorem claim_C10 : ∀ d t n : Nat,
    (CFFTable.mk d t n).d_max = d ∧ (CFFTable.mk d t n).t_max = t ∧
    (CFFTable.mk d t n).n_max = n :=
  fun _ _ _ => ⟨rfl, rfl, rfl⟩
